import Mathlib

/-
Shallow embedding of src/pygad/utils/parent_selection.py (class ParentSelection).

Modelling conventions:
 - Real-valued fitness values and probabilities are rationals; numpy 1-D arrays
   are lists of rationals; the population is a list of gene rows.
 - Instance fields read by the methods (self.population, self.sol_per_pop,
   self.K_tournament, self.num_parents_mating) become explicit parameters.
   The gene_type_single / gene_type branch only picks the dtype of the output
   allocation and carries no numeric meaning, so it is not modelled.
 - The process-wide numpy random source is an explicit stream of pre-drawn
   values passed to each operation.
 - In-place numpy mutation becomes explicit state passing; a numpy.empty row
   that was never written is represented as none.
 - Python "sorted" over distinct keys, being stable, equals sorting by the
   lexicographic pair (key, original position); range(n) elements coincide with
   their positions, so the embedding sorts by that total lexicographic order.
 - The NSGA-II collaborators non_dominated_sorting and crowding_distance live
   in pygad/helper/nsga2.py, which is not part of the sources here; they are
   modelled from the spec as explicit parameters (the pareto fronts, and an
   abstract crowding-distance assignment), see the doc comments below.
-/

namespace PygadSel

/-- Minimum of a list of rationals (numpy.min); 0 on the empty list, which the
source never hits because the loop runs once per existing entry. -/
def listMin : List ℚ → ℚ
  | [] => 0
  | x :: xs => xs.foldl min x

/-- Maximum of a list of rationals (numpy.max); 0 on the empty list. -/
def listMax : List ℚ → ℚ
  | [] => 0
  | x :: xs => xs.foldl max x

/-- Index of the first occurrence of value v in a list
(numpy.where(arr == v)[0][0]); returns the length when v is absent. -/
def firstIdxOf (v : ℚ) : List ℚ → Nat
  | [] => 0
  | x :: xs => if x = v then 0 else firstIdxOf v xs + 1

/-- Position of the first minimum entry, numpy.where(probs == numpy.min(probs))[0][0]. -/
def argminFirst (l : List ℚ) : Nat := firstIdxOf (listMin l) l

/-- Sentinel written over a consumed probability entry
(parent_selection.py lines 173 and 209). -/
def sentinel : ℚ := 99999999999

/-- Error message logged and raised by roulette_wheel_selection and
stochastic_universal_selection when the fitness sum is zero. -/
def zeroFitnessMsg : String := "Cannot proceed because the sum of fitness values is zero. Cannot divide by zero."

/-- Total order on positions modelling Python sorted(range(n), key=lambda k: fitness[k]):
a stable sort by key over the distinct elements of range(n) orders them by the
lexicographic pair (key, position). -/
def pyKey (fitness : List ℚ) (a b : Nat) : Prop :=
  fitness.getD a 0 < fitness.getD b 0 ∨ (fitness.getD a 0 = fitness.getD b 0 ∧ a ≤ b)

instance (fitness : List ℚ) : DecidableRel (pyKey fitness) := fun a b => by
  unfold pyKey; infer_instance

instance (fitness : List ℚ) : IsTotal Nat (pyKey fitness) where
  total a b := by
    unfold pyKey
    rcases lt_trichotomy (fitness.getD a 0) (fitness.getD b 0) with h | h | h
    · exact Or.inl (Or.inl h)
    · rcases Nat.le_total a b with hab | hab
      · exact Or.inl (Or.inr ⟨h, hab⟩)
      · exact Or.inr (Or.inr ⟨h.symm, hab⟩)
    · exact Or.inr (Or.inl h)

instance (fitness : List ℚ) : IsTrans Nat (pyKey fitness) where
  trans a b c hab hbc := by
    unfold pyKey at *
    rcases hab with h1 | ⟨e1, l1⟩
    · rcases hbc with h2 | ⟨e2, _⟩
      · exact Or.inl (h1.trans h2)
      · exact Or.inl (e2 ▸ h1)
    · rcases hbc with h2 | ⟨e2, l2⟩
      · exact Or.inl (e1 ▸ h2)
      · exact Or.inr ⟨e1.trans e2, l1.trans l2⟩

/-- Python sorted(range(len(fitness)), key=lambda k: fitness[k])
(parent_selection.py lines 19 and 45). -/
def pySortedIdx (fitness : List ℚ) : List Nat :=
  List.insertionSort (pyKey fitness) (List.range fitness.length)

/-- steady_state_selection (lines 9-31): rank positions by fitness ascending,
reverse, take the first num_parents as parent indices, and copy the matching
population rows. -/
def steady_state_selection (population : List (List ℚ)) (fitness : List ℚ)
    (num_parents : Nat) : List (List ℚ) × List Nat :=
  let fitness_sorted := (pySortedIdx fitness).reverse
  let sel := fitness_sorted.take num_parents
  (sel.map (fun i => population.getD i []), sel)

/-- random_selection (lines 70-90): num_parents indices pre-drawn uniformly
with replacement from [0, population size) arrive as the random stream. -/
def random_selection (population : List (List ℚ)) (fitness : List ℚ)
    (num_parents : Nat) (rand_indices : List Nat) : List (List ℚ) × List Nat :=
  let idxs := rand_indices.take num_parents
  (idxs.map (fun i => population.getD i []), idxs)

/-- Winner of one tournament (lines 110-113): gather the drawn candidates'
fitness values, find the first position attaining their maximum, and return the
candidate index stored at that position. -/
def tournament_pick (fitness : List ℚ) (draws : List Nat) : Nat :=
  let K_fitnesses := draws.map (fun i => fitness.getD i 0)
  draws.getD (firstIdxOf (listMax K_fitnesses) K_fitnesses) 0

/-- tournament_selection (lines 92-116): one row of K pre-drawn candidate
indices per parent. -/
def tournament_selection (population : List (List ℚ)) (fitness : List ℚ)
    (num_parents : Nat) (rand_indices : List (List Nat)) : List (List ℚ) × List Nat :=
  let idxs := (List.range num_parents).map (fun pn => tournament_pick fitness (rand_indices.getD pn []))
  (idxs.map (fun i => population.getD i []), idxs)

/-- Mutable state of the wheel-building loop (lines 162-173 and 198-209): the
probs array being consumed in place, the start and end arrays, and the running
cumulative value curr. -/
structure WheelState where
  probs : List ℚ
  ps : List ℚ
  pe : List ℚ
  curr : ℚ

/-- One iteration of the wheel loop (lines 169-173): locate the first remaining
minimum probability, give it the next contiguous range, and overwrite it with
the sentinel. -/
def wheelStep (s : WheelState) : WheelState :=
  let m := argminFirst s.probs
  let p := s.probs.getD m 0
  { probs := s.probs.set m sentinel
    ps := s.ps.set m s.curr
    pe := s.pe.set m (s.curr + p)
    curr := s.curr + p }

/-- The wheel loop iterated k times. -/
def wheelIter : Nat → WheelState → WheelState
  | 0, s => s
  | k + 1, s => wheelIter k (wheelStep s)

/-- wheel_cumulative_probs (lines 150-181): runs the loop once per entry over
zero-initialised start and end arrays. The source mutates the caller-supplied
probs array in place and does not return it; the embedding returns the final
state of that array as the third component so the mutation is observable. The
empty parents container the source also allocates carries no data and is
omitted. -/
def wheel_cumulative_probs (probs : List ℚ) : List ℚ × List ℚ × List ℚ :=
  let s := wheelIter probs.length
    ⟨probs, List.replicate probs.length 0, List.replicate probs.length 0, 0⟩
  (s.ps, s.pe, s.probs)

/-- Inner sampling scan shared by roulette_wheel_selection, rank_selection and
stochastic_universal_selection (lines 59-61, 142-143, 226-227): the first idx
in range(n) whose half-open range contains r, none when the scan falls through
without a break. -/
def scanWheel (ps pe : List ℚ) (r : ℚ) : Option Nat :=
  (List.range ps.length).find? (fun i => decide (ps.getD i 0 ≤ r) && decide (r < pe.getD i 0))

/-- roulette_wheel_selection (lines 118-148): raise on zero fitness sum, else
normalise, build the wheel from a copy of probs, and map each pre-drawn uniform
sample to the first containing range. A parent slot whose sample missed every
range keeps its uninitialised row (none) and appends no index. -/
def roulette_wheel_selection (population : List (List ℚ)) (fitness : List ℚ)
    (num_parents : Nat) (rand : List ℚ) :
    Except String (List (Option (List ℚ)) × List Nat) :=
  let fitness_sum := fitness.sum
  if fitness_sum = 0 then .error zeroFitnessMsg
  else
    let probs := fitness.map (fun f => f / fitness_sum)
    let wheel := wheel_cumulative_probs probs
    let hits := (rand.take num_parents).map (scanWheel wheel.1 wheel.2.1)
    .ok (hits.map (Option.map (fun i => population.getD i [])), hits.filterMap id)

/-- rank_selection (lines 33-68): ranks 1..sol_per_pop are normalised into
probabilities, the wheel is built from a copy, and each sampled wheel slot is
translated back to a population index through the fitness-ascending order. -/
def rank_selection (population : List (List ℚ)) (fitness : List ℚ)
    (sol_per_pop : Nat) (num_parents : Nat) (rand : List ℚ) :
    List (Option (List ℚ)) × List Nat :=
  let fitness_sorted := pySortedIdx fitness
  let rank : List ℚ := (List.range sol_per_pop).map (fun (i : Nat) => (i : ℚ) + 1)
  let probs := rank.map (fun r => r / rank.sum)
  let wheel := wheel_cumulative_probs probs
  let hits := (rand.take num_parents).map (fun r =>
      (scanWheel wheel.1 wheel.2.1 r).map (fun idx => fitness_sorted.getD idx 0))
  (hits.map (Option.map (fun i => population.getD i [])), hits.filterMap id)

/-- stochastic_universal_selection (lines 183-232): raise on zero fitness sum,
else normalise and build the wheel (the source repeats the wheel loop inline;
the computation is the same lines as wheel_cumulative_probs), then walk
num_parents evenly spaced pointers from the single pre-drawn offset. -/
def stochastic_universal_selection (population : List (List ℚ)) (fitness : List ℚ)
    (num_parents : Nat) (num_parents_mating : Nat) (first_pointer : ℚ) :
    Except String (List (Option (List ℚ)) × List Nat) :=
  let fitness_sum := fitness.sum
  if fitness_sum = 0 then .error zeroFitnessMsg
  else
    let probs := fitness.map (fun f => f / fitness_sum)
    let wheel := wheel_cumulative_probs probs
    let pointers_distance : ℚ := 1 / (num_parents_mating : ℚ)
    let hits := (List.range num_parents).map (fun (pn : Nat) =>
        scanWheel wheel.1 wheel.2.1 (first_pointer + (pn : ℚ) * pointers_distance))
    .ok (hits.map (Option.map (fun i => population.getD i [])), hits.filterMap id)

/-- Modelled from the spec: non_dominated_sorting (pygad/helper/nsga2.py, not in
the sources here) partitions the solutions into pareto fronts, front 0 best,
and also returns each solution's front index. The fronts arrive as an explicit
parameter (each front the list of its population indices, standing for the
index column of the source's per-front array), and the solution-to-front map is
recovered as the index of the first front containing the solution. -/
def frontIndexOf (fronts : List (List Nat)) (i : Nat) : Nat :=
  match fronts with
  | [] => 0
  | f :: rest => if i ∈ f then 0 else frontIndexOf rest i + 1

/-- Modelled from the spec: crowding_distance (pygad/helper/nsga2.py, not in
the sources here) computes for one front a summed distance per solution and
returns, among other arrays, crowding_dist_pop_sorted_indices: the front's
population indices sorted by descending summed crowding distance. The numeric
metric itself is external, so it is abstracted as the assignment dist; the
summed-distance pairs are positionally aligned with this sorted order, so the
pair at position k is (sorted[k], dist sorted[k]). -/
def crowding_pop_sorted (dist : Nat → ℚ) (front : List Nat) : List Nat :=
  List.insertionSort (fun a b => dist b ≤ dist a) front

/-- Position of the first occurrence of v, Python list.index; none when absent
(where Python raises ValueError). -/
def natIdxOf (v : Nat) : List Nat → Option Nat
  | [] => none
  | x :: xs => if x = v then some 0 else (natIdxOf v xs).map (· + 1)

/-- One NSGA-II tournament (lines 280-348) between the first two drawn
candidates: lower front index wins outright; on the same front a single-member
front short-circuits to the first candidate, otherwise the crowding distances
are fetched through list.index lookups into the pop-sorted order and the larger
one wins, an exact tie falling to a uniform draw against 0.5. The none result
models the ValueError of a failed list.index lookup. -/
def nsga2TournamentPick (fronts : List (List Nat)) (dist : Nat → ℚ) (c0 c1 : Nat)
    (tieRand : ℚ) : Option Nat :=
  let f0 := frontIndexOf fronts c0
  let f1 := frontIndexOf fronts c1
  if f0 < f1 then some c0
  else if f1 < f0 then some c1
  else
    let pareto_front := fronts.getD f0 []
    if pareto_front.length = 1 then some c0
    else
      let sortedIdx := crowding_pop_sorted dist pareto_front
      match natIdxOf c0 sortedIdx, natIdxOf c1 sortedIdx with
      | some i0, some i1 =>
        let d0 := dist (sortedIdx.getD i0 0)
        let d1 := dist (sortedIdx.getD i1 0)
        if d1 < d0 then some c0
        else if d0 < d1 then some c1
        else if tieRand < 1 / 2 then some c0 else some c1
      | _, _ => none

/-- tournament_selection_nsga2 (lines 234-356): rand_indices is the pre-drawn
(num_parents, K_tournament) index matrix; only entries 0 and 1 of each row are
read by the comparison. tieRands supplies the lazily drawn uniform used on an
exact tie, one potential draw per parent. A failed lookup anywhere aborts the
call (none), as the propagating Python exception would. -/
def tournament_selection_nsga2 (population : List (List ℚ))
    (fronts : List (List Nat)) (dist : Nat → ℚ)
    (rand_indices : List (List Nat)) (tieRands : List ℚ) :
    Option (List (List ℚ) × List Nat) :=
  let picks := (List.range rand_indices.length).map (fun pn =>
      nsga2TournamentPick fronts dist ((rand_indices.getD pn []).getD 0 0)
        ((rand_indices.getD pn []).getD 1 0) (tieRands.getD pn 0))
  if none ∈ picks then none
  else
    let idxs := picks.filterMap id
    some (idxs.map (fun i => population.getD i []), idxs)

/-- Writes one whole pareto front into the parents array (lines 407-412): the
source indexes the rows by the loop variable sol_idx that restarts at 0 for
every front, so each front overwrites rows 0..len(front)-1. -/
def nsga2FullFrontWrite (population : List (List ℚ)) (front : List Nat)
    (parents : List (Option (List ℚ))) : List (Option (List ℚ)) :=
  (List.range front.length).foldl
    (fun ps k => ps.set k (some (population.getD (front.getD k 0) []))) parents

/-- The while loop of nsga2_selection (lines 397-433). The Option Nat argument
carries the leftover value of the loop variable sol_idx; the partial-front
branch reads it (line 425), so reaching that branch before any full front has
set it is the UnboundLocalError case, modelled as none. A partial front writes
every chosen row at that same leftover slot. -/
def nsga2Loop (population : List (List ℚ)) (dist : Nat → ℚ) :
    List (List Nat) → Nat → List (Option (List ℚ)) → List Nat → Option Nat →
    Option (List (Option (List ℚ)) × List Nat)
  | [], _, parents, acc, _ => some (parents, acc)
  | f :: rest, remaining, parents, acc, solIdx =>
    if remaining = 0 then some (parents, acc)
    else if f.length ≤ remaining then
      nsga2Loop population dist rest (remaining - f.length)
        (nsga2FullFrontWrite population f parents) (acc ++ f)
        (if f.length = 0 then solIdx else some (f.length - 1))
    else
      match solIdx with
      | none => none
      | some si =>
        let chosen := (crowding_pop_sorted dist f).take remaining
        nsga2Loop population dist rest 0
          (chosen.foldl (fun ps j => ps.set si (some (population.getD j []))) parents)
          (acc ++ chosen) (some si)

/-- nsga2_selection (lines 358-436): parents start as num_parents uninitialised
rows (none); the fronts are walked from index 0. -/
def nsga2_selection (population : List (List ℚ)) (fronts : List (List Nat))
    (dist : Nat → ℚ) (num_parents : Nat) :
    Option (List (Option (List ℚ)) × List Nat) :=
  nsga2Loop population dist fronts num_parents (List.replicate num_parents none) [] none

/-- Spec-side description of NSGA-II front-based selection for claim C2
(spec section 4.9): walk the fronts in increasing index order, take a whole
front whenever it fits in the remaining quota, and from the boundary front take
the top-k solutions by descending crowding distance, k the remaining quota. -/
def nsga2FrontSelectionSpec (dist : Nat → ℚ) : List (List Nat) → Nat → List Nat
  | [], _ => []
  | f :: rest, remaining =>
    if remaining = 0 then []
    else if f.length ≤ remaining then
      f ++ nsga2FrontSelectionSpec dist rest (remaining - f.length)
    else (crowding_pop_sorted dist f).take remaining

/- Invariant of the wheel-building loop. C is the list of already consumed
positions, most recent first; orig is the probs array as the loop received
it. -/

structure WheelInv (orig : List ℚ) (C : List Nat) (s : WheelState) : Prop where
  hlen : s.probs.length = orig.length
  hlps : s.ps.length = orig.length
  hlpe : s.pe.length = orig.length
  hnd : C.Nodup
  hmem : ∀ i ∈ C, i < orig.length
  hcons : ∀ i ∈ C, s.probs.getD i 0 = sentinel
  hkeep : ∀ i < orig.length, i ∉ C → s.probs.getD i 0 = orig.getD i 0
  hps0 : ∀ i ∈ C, 0 ≤ s.ps.getD i 0
  hpe : ∀ i ∈ C, s.pe.getD i 0 = s.ps.getD i 0 + orig.getD i 0
  hle : ∀ i ∈ C, s.pe.getD i 0 ≤ s.curr
  hun : ∀ i < orig.length, i ∉ C → s.ps.getD i 0 = 0 ∧ s.pe.getD i 0 = 0
  hdisj : ∀ i ∈ C, ∀ j ∈ C, i ≠ j →
    s.pe.getD i 0 ≤ s.ps.getD j 0 ∨ s.pe.getD j 0 ≤ s.ps.getD i 0
  hmono : ∀ i ∈ C, ∀ j < orig.length, j ∉ C → orig.getD i 0 ≤ orig.getD j 0
  hord : ∀ i ∈ C, ∀ j ∈ C, orig.getD i 0 < orig.getD j 0 →
    s.pe.getD i 0 ≤ s.ps.getD j 0
  hzero : (C = [] ∧ s.curr = 0) ∨ ∃ i ∈ C, s.ps.getD i 0 = 0
  hnn : 0 ≤ s.curr

/-- The per-parent scan results of stochastic_universal_selection (lines
224-230): parent pn reads the first wheel range containing the pointer
first_pointer + pn * (1 / num_parents_mating). -/
def susHits (fitness : List ℚ) (num_parents num_parents_mating : Nat)
    (first_pointer : ℚ) : List (Option Nat) :=
  (List.range num_parents).map (fun (pn : Nat) =>
    scanWheel (wheel_cumulative_probs (fitness.map (fun f => f / fitness.sum))).1
      (wheel_cumulative_probs (fitness.map (fun f => f / fitness.sum))).2.1
      (first_pointer + (pn : ℚ) * (1 / (num_parents_mating : ℚ))))

/- Basic facts about the list helpers. -/

lemma foldl_min_le_init (xs : List ℚ) (a : ℚ) : xs.foldl min a ≤ a := by
  induction xs generalizing a with
  | nil => exact le_refl a
  | cons x xs ih =>
    rw [List.foldl_cons]
    exact le_trans (ih (min a x)) (min_le_left a x)

lemma foldl_min_le_mem (xs : List ℚ) (a x : ℚ) (hx : x ∈ xs) : xs.foldl min a ≤ x := by
  induction xs generalizing a with
  | nil => cases hx
  | cons y ys ih =>
    rw [List.foldl_cons]
    rcases List.mem_cons.mp hx with rfl | h
    · exact le_trans (foldl_min_le_init ys (min a x)) (min_le_right a x)
    · exact ih (min a y) h

lemma foldl_min_mem (xs : List ℚ) (a : ℚ) : xs.foldl min a = a ∨ xs.foldl min a ∈ xs := by
  induction xs generalizing a with
  | nil => exact Or.inl rfl
  | cons y ys ih =>
    rw [List.foldl_cons]
    rcases ih (min a y) with h | h
    · rcases min_choice a y with hc | hc
      · exact Or.inl (h.trans hc)
      · exact Or.inr (List.mem_cons.mpr (Or.inl (h.trans hc)))
    · exact Or.inr (List.mem_cons.mpr (Or.inr h))

lemma listMin_le (l : List ℚ) (x : ℚ) (hx : x ∈ l) : listMin l ≤ x := by
  cases l with
  | nil => cases hx
  | cons y ys =>
    rcases List.mem_cons.mp hx with rfl | h
    · exact foldl_min_le_init ys x
    · exact foldl_min_le_mem ys y x h

lemma listMin_mem (l : List ℚ) (h : l ≠ []) : listMin l ∈ l := by
  cases l with
  | nil => exact absurd rfl h
  | cons y ys =>
    rcases foldl_min_mem ys y with h1 | h1
    · exact List.mem_cons.mpr (Or.inl h1)
    · exact List.mem_cons.mpr (Or.inr h1)

lemma foldl_max_ge_init (xs : List ℚ) (a : ℚ) : a ≤ xs.foldl max a := by
  induction xs generalizing a with
  | nil => exact le_refl a
  | cons x xs ih =>
    rw [List.foldl_cons]
    exact le_trans (le_max_left a x) (ih (max a x))

lemma foldl_max_ge_mem (xs : List ℚ) (a x : ℚ) (hx : x ∈ xs) : x ≤ xs.foldl max a := by
  induction xs generalizing a with
  | nil => cases hx
  | cons y ys ih =>
    rw [List.foldl_cons]
    rcases List.mem_cons.mp hx with rfl | h
    · exact le_trans (le_max_right a x) (foldl_max_ge_init ys (max a x))
    · exact ih (max a y) h

lemma foldl_max_mem (xs : List ℚ) (a : ℚ) : xs.foldl max a = a ∨ xs.foldl max a ∈ xs := by
  induction xs generalizing a with
  | nil => exact Or.inl rfl
  | cons y ys ih =>
    rw [List.foldl_cons]
    rcases ih (max a y) with h | h
    · rcases max_choice a y with hc | hc
      · exact Or.inl (h.trans hc)
      · exact Or.inr (List.mem_cons.mpr (Or.inl (h.trans hc)))
    · exact Or.inr (List.mem_cons.mpr (Or.inr h))

lemma listMax_ge (l : List ℚ) (x : ℚ) (hx : x ∈ l) : x ≤ listMax l := by
  cases l with
  | nil => cases hx
  | cons y ys =>
    rcases List.mem_cons.mp hx with rfl | h
    · exact foldl_max_ge_init ys x
    · exact foldl_max_ge_mem ys y x h

lemma listMax_mem (l : List ℚ) (h : l ≠ []) : listMax l ∈ l := by
  cases l with
  | nil => exact absurd rfl h
  | cons y ys =>
    rcases foldl_max_mem ys y with h1 | h1
    · exact List.mem_cons.mpr (Or.inl h1)
    · exact List.mem_cons.mpr (Or.inr h1)

lemma firstIdxOf_lt_length (v : ℚ) (l : List ℚ) (hv : v ∈ l) :
    firstIdxOf v l < l.length := by
  induction l with
  | nil => cases hv
  | cons x xs ih =>
    rw [firstIdxOf]
    by_cases hx : x = v
    · simp [hx]
    · rw [if_neg hx]
      rcases List.mem_cons.mp hv with rfl | h
      · exact absurd rfl hx
      · have := ih h
        rw [List.length_cons]
        omega

lemma getD_firstIdxOf (v : ℚ) (l : List ℚ) (hv : v ∈ l) :
    l.getD (firstIdxOf v l) 0 = v := by
  induction l with
  | nil => cases hv
  | cons x xs ih =>
    rw [firstIdxOf]
    by_cases hx : x = v
    · rw [if_pos hx]
      exact hx
    · rw [if_neg hx, List.getD_cons_succ]
      rcases List.mem_cons.mp hv with rfl | h
      · exact absurd rfl hx
      · exact ih h

lemma firstIdxOf_ne_before (v : ℚ) (l : List ℚ) :
    ∀ k < firstIdxOf v l, l.getD k 0 ≠ v := by
  induction l with
  | nil => intro k hk; rw [firstIdxOf] at hk; omega
  | cons x xs ih =>
    intro k hk
    rw [firstIdxOf] at hk
    by_cases hx : x = v
    · rw [if_pos hx] at hk; omega
    · rw [if_neg hx] at hk
      cases k with
      | zero => rw [List.getD_cons_zero]; exact hx
      | succ k => rw [List.getD_cons_succ]; exact ih k (by omega)

lemma getD_set_self {α : Type} (l : List α) (i : Nat) (a d : α) (h : i < l.length) :
    (l.set i a).getD i d = a := by
  rw [List.getD_eq_getElem?_getD, List.getElem?_set_self h]
  rfl

lemma getD_set_ne {α : Type} (l : List α) {i j : Nat} (a d : α) (h : i ≠ j) :
    (l.set i a).getD j d = l.getD j d := by
  rw [List.getD_eq_getElem?_getD, List.getElem?_set_ne h, ← List.getD_eq_getElem?_getD]

lemma getD_mem {α : Type} (l : List α) (i : Nat) (d : α) (h : i < l.length) :
    l.getD i d ∈ l := by
  rw [List.getD_eq_getElem l d h]
  exact List.getElem_mem h

lemma getD_replicate {α : Type} {n i : Nat} (a d : α) (h : i < n) :
    (List.replicate n a).getD i d = a := by
  rw [List.getD_eq_getElem?_getD, List.getElem?_replicate, if_pos h]
  rfl

lemma getD_map_range {α : Type} (f : Nat → α) {n pn : Nat} (h : pn < n) (d : α) :
    ((List.range n).map f).getD pn d = f pn := by
  have hlen : pn < ((List.range n).map f).length := by
    rw [List.length_map, List.length_range]; exact h
  rw [List.getD_eq_getElem _ _ hlen, List.getElem_map, List.getElem_range]

lemma getD_map {α β : Type} (f : α → β) (l : List α) {i : Nat} (h : i < l.length)
    (d : α) (e : β) : (l.map f).getD i e = f (l.getD i d) := by
  have hlen : i < (l.map f).length := by rw [List.length_map]; exact h
  rw [List.getD_eq_getElem _ _ hlen, List.getElem_map, List.getD_eq_getElem _ _ h]

lemma sum_getD_range (l : List ℚ) :
    ((List.range l.length).map (fun i => l.getD i 0)).sum = l.sum := by
  induction l with
  | nil => simp
  | cons a l ih =>
    rw [List.length_cons, List.range_succ_eq_map, List.map_cons, List.map_map]
    have hfun : (fun i => (a :: l).getD i 0) ∘ Nat.succ = fun i => l.getD i 0 := by
      funext i
      simp [List.getD_cons_succ]
    rw [hfun, List.sum_cons, ih, List.getD_cons_zero, List.sum_cons]

lemma natIdxOf_found (v : Nat) (l : List Nat) (hv : v ∈ l) :
    ∃ k, natIdxOf v l = some k ∧ k < l.length ∧ l.getD k 0 = v := by
  induction l with
  | nil => cases hv
  | cons x xs ih =>
    rw [natIdxOf]
    by_cases hx : x = v
    · exact ⟨0, by rw [if_pos hx], by simp, hx⟩
    · rcases List.mem_cons.mp hv with rfl | h
      · exact absurd rfl hx
      · obtain ⟨k, hk, hklen, hkval⟩ := ih h
        refine ⟨k + 1, ?_, ?_, ?_⟩
        · rw [if_neg hx, hk]; rfl
        · rw [List.length_cons]; omega
        · rw [List.getD_cons_succ]; exact hkval

lemma filterMap_id_of_no_none (l : List (Option Nat)) (h : none ∉ l) :
    l.filterMap id = l.map (fun o => o.getD 0) := by
  induction l with
  | nil => rfl
  | cons x xs ih =>
    have hx : x ≠ none := fun hc => h (List.mem_cons.mpr (Or.inl hc.symm))
    obtain ⟨a, rfl⟩ := Option.ne_none_iff_exists'.mp hx
    have hxs : none ∉ xs := fun hc => h (List.mem_cons.mpr (Or.inr hc))
    rw [List.map_cons, List.filterMap_cons]
    simp only [id, Option.getD_some]
    rw [ih hxs]

lemma exists_unconsumed {C : List Nat} {n : Nat} (hnd : C.Nodup)
    (hmem : ∀ i ∈ C, i < n) (hlt : C.length < n) : ∃ j, j < n ∧ j ∉ C := by
  by_contra hc
  push_neg at hc
  have hsub : Finset.range n ⊆ C.toFinset := by
    intro i hi
    exact List.mem_toFinset.mpr (hc i (Finset.mem_range.mp hi))
  have hcard := Finset.card_le_card hsub
  rw [Finset.card_range, List.toFinset_card_of_nodup hnd] at hcard
  omega

lemma wheelInv_step {orig : List ℚ} {C : List Nat} {s : WheelState}
    (hpos : ∀ p ∈ orig, 0 ≤ p) (hsen : ∀ p ∈ orig, p < sentinel)
    (hlt : C.length < orig.length) (inv : WheelInv orig C s) :
    argminFirst s.probs < orig.length ∧ argminFirst s.probs ∉ C ∧
      WheelInv orig (argminFirst s.probs :: C) (wheelStep s) := by
  obtain ⟨j0, hj0n, hj0C⟩ := exists_unconsumed inv.hnd inv.hmem hlt
  have hn0 : 0 < orig.length := Nat.lt_of_le_of_lt (Nat.zero_le _) hlt
  have hne : s.probs ≠ [] := List.ne_nil_of_length_pos (inv.hlen ▸ hn0)
  have hminmem : listMin s.probs ∈ s.probs := listMin_mem _ hne
  have hj0len : j0 < s.probs.length := inv.hlen ▸ hj0n
  have hminle : listMin s.probs ≤ s.probs.getD j0 0 :=
    listMin_le _ _ (getD_mem _ _ _ hj0len)
  have hj0val : s.probs.getD j0 0 = orig.getD j0 0 := inv.hkeep j0 hj0n hj0C
  have hminsen : listMin s.probs < sentinel := by
    calc listMin s.probs ≤ orig.getD j0 0 := hj0val ▸ hminle
    _ < sentinel := hsen _ (getD_mem _ _ _ hj0n)
  have hmlen : argminFirst s.probs < s.probs.length := firstIdxOf_lt_length _ _ hminmem
  have hmval : s.probs.getD (argminFirst s.probs) 0 = listMin s.probs :=
    getD_firstIdxOf _ _ hminmem
  have hmn : argminFirst s.probs < orig.length := inv.hlen ▸ hmlen
  have hmC : argminFirst s.probs ∉ C := by
    intro h
    have := inv.hcons _ h
    rw [hmval] at this
    exact absurd this (ne_of_lt hminsen)
  have hmorig : s.probs.getD (argminFirst s.probs) 0 = orig.getD (argminFirst s.probs) 0 :=
    inv.hkeep _ hmn hmC
  have horigmin : orig.getD (argminFirst s.probs) 0 = listMin s.probs := by
    rw [← hmorig, hmval]
  have hpnn : 0 ≤ orig.getD (argminFirst s.probs) 0 := hpos _ (getD_mem _ _ _ hmn)
  have hminall : ∀ j < orig.length, j ∉ C →
      orig.getD (argminFirst s.probs) 0 ≤ orig.getD j 0 := by
    intro j hj hjC
    rw [horigmin, ← inv.hkeep j hj hjC]
    exact listMin_le _ _ (getD_mem _ _ _ (inv.hlen ▸ hj))
  set m := argminFirst s.probs with hmdef
  have hstep : wheelStep s = ⟨s.probs.set m sentinel, s.ps.set m s.curr,
      s.pe.set m (s.curr + s.probs.getD m 0), s.curr + s.probs.getD m 0⟩ := rfl
  refine ⟨hmn, hmC, ?_⟩
  rw [hstep]
  have hp := hmorig
  constructor
  case hlen => rw [List.length_set]; exact inv.hlen
  case hlps => rw [List.length_set]; exact inv.hlps
  case hlpe => rw [List.length_set]; exact inv.hlpe
  case hnd => exact List.nodup_cons.mpr ⟨hmC, inv.hnd⟩
  case hmem =>
    intro i hi
    rcases List.mem_cons.mp hi with rfl | hi
    · exact hmn
    · exact inv.hmem i hi
  case hcons =>
    intro i hi
    rcases List.mem_cons.mp hi with rfl | hi
    · exact getD_set_self _ _ _ _ hmlen
    · have him : m ≠ i := fun hh => hmC (by rw [hh]; exact hi)
      rw [getD_set_ne _ _ _ him]
      exact inv.hcons i hi
  case hkeep =>
    intro i hin hiC
    have him : m ≠ i := fun hh => hiC (by rw [← hh]; exact List.mem_cons_self m C)
    rw [getD_set_ne _ _ _ him]
    exact inv.hkeep i hin (fun h => hiC (List.mem_cons.mpr (Or.inr h)))
  case hps0 =>
    intro i hi
    rcases List.mem_cons.mp hi with rfl | hi
    · rw [getD_set_self _ _ _ _ (inv.hlps ▸ hmn)]
      exact inv.hnn
    · have him : m ≠ i := fun hh => hmC (by rw [hh]; exact hi)
      rw [getD_set_ne _ _ _ him]
      exact inv.hps0 i hi
  case hpe =>
    intro i hi
    rcases List.mem_cons.mp hi with rfl | hi
    · rw [getD_set_self _ _ _ _ (inv.hlpe ▸ hmn), getD_set_self _ _ _ _ (inv.hlps ▸ hmn), hp]
    · have him : m ≠ i := fun hh => hmC (by rw [hh]; exact hi)
      rw [getD_set_ne _ _ _ him, getD_set_ne _ _ _ him]
      exact inv.hpe i hi
  case hle =>
    intro i hi
    rcases List.mem_cons.mp hi with rfl | hi
    · rw [getD_set_self _ _ _ _ (inv.hlpe ▸ hmn)]
    · have him : m ≠ i := fun hh => hmC (by rw [hh]; exact hi)
      rw [getD_set_ne _ _ _ him]
      have h1 := inv.hle i hi
      have h2 : 0 ≤ s.probs.getD m 0 := hp ▸ hpnn
      show s.pe.getD i 0 ≤ s.curr + s.probs.getD m 0
      linarith
  case hun =>
    intro i hin hiC
    have him : m ≠ i := fun hh => hiC (by rw [← hh]; exact List.mem_cons_self m C)
    have hiC2 : i ∉ C := fun h => hiC (List.mem_cons.mpr (Or.inr h))
    rw [getD_set_ne _ _ _ him, getD_set_ne _ _ _ him]
    exact inv.hun i hin hiC2
  case hdisj =>
    intro i hi j hj hij
    rcases List.mem_cons.mp hi with rfl | hi
    · rcases List.mem_cons.mp hj with rfl | hj
      · exact absurd rfl hij
      · have hjm : m ≠ j := fun hh => hmC (by rw [hh]; exact hj)
        right
        rw [getD_set_ne _ _ _ hjm, getD_set_self _ _ _ _ (inv.hlps ▸ hmn)]
        exact inv.hle j hj
    · rcases List.mem_cons.mp hj with rfl | hj
      · have him : m ≠ i := fun hh => hmC (by rw [hh]; exact hi)
        left
        rw [getD_set_ne _ _ _ him, getD_set_self _ _ _ _ (inv.hlps ▸ hmn)]
        exact inv.hle i hi
      · have him : m ≠ i := fun hh => hmC (by rw [hh]; exact hi)
        have hjm : m ≠ j := fun hh => hmC (by rw [hh]; exact hj)
        rw [getD_set_ne _ _ _ him, getD_set_ne _ _ _ hjm,
          getD_set_ne _ _ _ him, getD_set_ne _ _ _ hjm]
        exact inv.hdisj i hi j hj hij
  case hmono =>
    intro i hi j hjn hjC
    have hjC2 : j ∉ C := fun h => hjC (List.mem_cons.mpr (Or.inr h))
    rcases List.mem_cons.mp hi with rfl | hi
    · exact hminall j hjn hjC2
    · exact inv.hmono i hi j hjn hjC2
  case hord =>
    intro i hi j hj hlt2
    rcases List.mem_cons.mp hi with rfl | hi
    · rcases List.mem_cons.mp hj with rfl | hj
      · exact absurd rfl (ne_of_lt hlt2)
      · exact absurd hlt2 (not_lt.mpr (inv.hmono j hj m hmn hmC))
    · rcases List.mem_cons.mp hj with rfl | hj
      · have him : m ≠ i := fun hh => hmC (by rw [hh]; exact hi)
        rw [getD_set_ne _ _ _ him, getD_set_self _ _ _ _ (inv.hlps ▸ hmn)]
        exact inv.hle i hi
      · have him : m ≠ i := fun hh => hmC (by rw [hh]; exact hi)
        have hjm : m ≠ j := fun hh => hmC (by rw [hh]; exact hj)
        rw [getD_set_ne _ _ _ him, getD_set_ne _ _ _ hjm]
        exact inv.hord i hi j hj hlt2
  case hzero =>
    right
    rcases inv.hzero with ⟨hC, hcurr⟩ | ⟨i, hi, hips⟩
    · refine ⟨m, List.mem_cons_self m C, ?_⟩
      rw [getD_set_self _ _ _ _ (inv.hlps ▸ hmn)]
      exact hcurr
    · have him : m ≠ i := fun hh => hmC (by rw [hh]; exact hi)
      refine ⟨i, List.mem_cons.mpr (Or.inr hi), ?_⟩
      rw [getD_set_ne _ _ _ him]
      exact hips
  case hnn =>
    have h2 : 0 ≤ s.probs.getD m 0 := hp ▸ hpnn
    show 0 ≤ s.curr + s.probs.getD m 0
    linarith [inv.hnn]

lemma wheelInv_iter {orig : List ℚ}
    (hpos : ∀ p ∈ orig, 0 ≤ p) (hsen : ∀ p ∈ orig, p < sentinel) :
    ∀ (k : Nat) (C : List Nat) (s : WheelState), WheelInv orig C s →
      C.length + k ≤ orig.length →
      ∃ C', C'.length = C.length + k ∧ WheelInv orig C' (wheelIter k s) := by
  intro k
  induction k with
  | zero =>
    intro C s inv _
    exact ⟨C, by omega, inv⟩
  | succ k ih =>
    intro C s inv hle
    have hlt : C.length < orig.length := by omega
    obtain ⟨hmn, hmC, inv2⟩ := wheelInv_step hpos hsen hlt inv
    have hle2 : (argminFirst s.probs :: C).length + k ≤ orig.length := by
      rw [List.length_cons]; omega
    obtain ⟨C', hlen, inv3⟩ := ih _ _ inv2 hle2
    rw [List.length_cons] at hlen
    refine ⟨C', by omega, ?_⟩
    show WheelInv orig C' (wheelIter (k + 1) s)
    rw [wheelIter]
    exact inv3

lemma wheelInv_init (orig : List ℚ) :
    WheelInv orig []
      ⟨orig, List.replicate orig.length 0, List.replicate orig.length 0, 0⟩ := by
  constructor
  case hlen => rfl
  case hlps => exact List.length_replicate _ _
  case hlpe => exact List.length_replicate _ _
  case hnd => exact List.nodup_nil
  case hmem => intro i hi; cases hi
  case hcons => intro i hi; cases hi
  case hkeep => intro i _ _; rfl
  case hps0 => intro i hi; cases hi
  case hpe => intro i hi; cases hi
  case hle => intro i hi; cases hi
  case hun =>
    intro i hin _
    constructor
    · exact getD_replicate _ _ hin
    · exact getD_replicate _ _ hin
  case hdisj => intro i hi; cases hi
  case hmono => intro i hi; cases hi
  case hord => intro i hi; cases hi
  case hzero => exact Or.inl ⟨rfl, rfl⟩
  case hnn => exact le_refl 0

/-- After a full run of the wheel loop every position has been consumed and the
invariant holds of the final state. -/
lemma wheel_final (orig : List ℚ)
    (hpos : ∀ p ∈ orig, 0 ≤ p) (hsen : ∀ p ∈ orig, p < sentinel) :
    ∃ C, (∀ i < orig.length, i ∈ C) ∧
      WheelInv orig C (wheelIter orig.length
        ⟨orig, List.replicate orig.length 0, List.replicate orig.length 0, 0⟩) := by
  obtain ⟨C, hlen, inv⟩ :=
    wheelInv_iter hpos hsen orig.length [] _ (wheelInv_init orig) (by simp)
  refine ⟨C, ?_, inv⟩
  have hlenC : C.length = orig.length := by simpa using hlen
  have hfin : C.toFinset = Finset.range orig.length := by
    apply Finset.eq_of_subset_of_card_le
    · intro i hi
      exact Finset.mem_range.mpr (inv.hmem i (List.mem_toFinset.mp hi))
    · rw [Finset.card_range, List.toFinset_card_of_nodup inv.hnd, hlenC]
  intro i hi
  have : i ∈ C.toFinset := by
    rw [hfin]
    exact Finset.mem_range.mpr hi
  exact List.mem_toFinset.mp this

/-- Wheel ranges of wheel_cumulative_probs: widths, non-negativity,
disjointness, smallest-probability-first ordering, a range starting at 0, and
the fully consumed input array. Shared base for several claims. -/
lemma wheel_props (probs : List ℚ)
    (hpos : ∀ p ∈ probs, 0 ≤ p) (hsen : ∀ p ∈ probs, p < sentinel) :
    (wheel_cumulative_probs probs).1.length = probs.length ∧
    (wheel_cumulative_probs probs).2.1.length = probs.length ∧
    (∀ i < probs.length, 0 ≤ (wheel_cumulative_probs probs).1.getD i 0 ∧
      (wheel_cumulative_probs probs).2.1.getD i 0 =
        (wheel_cumulative_probs probs).1.getD i 0 + probs.getD i 0) ∧
    (∀ i < probs.length, ∀ j < probs.length, i ≠ j →
      (wheel_cumulative_probs probs).2.1.getD i 0 ≤ (wheel_cumulative_probs probs).1.getD j 0 ∨
      (wheel_cumulative_probs probs).2.1.getD j 0 ≤ (wheel_cumulative_probs probs).1.getD i 0) ∧
    (∀ i < probs.length, ∀ j < probs.length, probs.getD i 0 < probs.getD j 0 →
      (wheel_cumulative_probs probs).2.1.getD i 0 ≤ (wheel_cumulative_probs probs).1.getD j 0) ∧
    (probs.length ≠ 0 → ∃ i < probs.length, (wheel_cumulative_probs probs).1.getD i 0 = 0) ∧
    (wheel_cumulative_probs probs).2.2 = List.replicate probs.length sentinel := by
  obtain ⟨C, hcov, inv⟩ := wheel_final probs hpos hsen
  simp only [wheel_cumulative_probs]
  refine ⟨inv.hlps, inv.hlpe, ?_, ?_, ?_, ?_, ?_⟩
  · intro i hi
    exact ⟨inv.hps0 i (hcov i hi), inv.hpe i (hcov i hi)⟩
  · intro i hi j hj hij
    exact inv.hdisj i (hcov i hi) j (hcov j hj) hij
  · intro i hi j hj hlt
    exact inv.hord i (hcov i hi) j (hcov j hj) hlt
  · intro hne
    rcases inv.hzero with ⟨hC, _⟩ | ⟨i, hi, hips⟩
    · exfalso
      have h0 : 0 ∈ C := hcov 0 (Nat.pos_of_ne_zero hne)
      rw [hC] at h0
      cases h0
    · exact ⟨i, inv.hmem i hi, hips⟩
  · apply List.ext_getElem
    · rw [inv.hlen, List.length_replicate]
    · intro i h1 h2
      have hin : i < probs.length := by rw [inv.hlen] at h1; exact h1
      have := inv.hcons i (hcov i hin)
      rw [List.getD_eq_getElem _ _ h1] at this
      rw [this]
      have := getD_replicate (n := probs.length) sentinel (0 : ℚ) hin
      rw [List.getD_eq_getElem _ _ h2] at this
      rw [this]

/-- C5: for every non-negative probability vector (entries below the sentinel,
which the helper assumes is larger than any real probability), the
cumulative-wheel helper returns start and end arrays forming pairwise
non-overlapping half-open ranges that begin at 0, whose widths sum to the sum
of the probabilities, and which are ordered from smallest probability to
largest: a strictly smaller probability occupies a range lying entirely before
the range of a larger one. -/
theorem c5_wheel_ranges (probs : List ℚ)
    (hpos : ∀ p ∈ probs, 0 ≤ p) (hsen : ∀ p ∈ probs, p < sentinel) :
    (∀ i < probs.length, 0 ≤ (wheel_cumulative_probs probs).1.getD i 0 ∧
      (wheel_cumulative_probs probs).1.getD i 0 ≤ (wheel_cumulative_probs probs).2.1.getD i 0) ∧
    (probs.length ≠ 0 → ∃ i < probs.length, (wheel_cumulative_probs probs).1.getD i 0 = 0) ∧
    ((List.range probs.length).map (fun i =>
      (wheel_cumulative_probs probs).2.1.getD i 0 -
        (wheel_cumulative_probs probs).1.getD i 0)).sum = probs.sum ∧
    (∀ i < probs.length, ∀ j < probs.length, i ≠ j →
      (wheel_cumulative_probs probs).2.1.getD i 0 ≤ (wheel_cumulative_probs probs).1.getD j 0 ∨
      (wheel_cumulative_probs probs).2.1.getD j 0 ≤ (wheel_cumulative_probs probs).1.getD i 0) ∧
    (∀ i < probs.length, ∀ j < probs.length, probs.getD i 0 < probs.getD j 0 →
      (wheel_cumulative_probs probs).2.1.getD i 0 ≤ (wheel_cumulative_probs probs).1.getD j 0) := by
  obtain ⟨_, _, hw, hdisj, hord, hstart, _⟩ := wheel_props probs hpos hsen
  refine ⟨?_, hstart, ?_, hdisj, hord⟩
  · intro i hi
    obtain ⟨h0, he⟩ := hw i hi
    refine ⟨h0, ?_⟩
    rw [he]
    have : 0 ≤ probs.getD i 0 := hpos _ (getD_mem _ _ _ hi)
    linarith
  · have hcong : (List.range probs.length).map (fun i =>
        (wheel_cumulative_probs probs).2.1.getD i 0 -
          (wheel_cumulative_probs probs).1.getD i 0) =
        (List.range probs.length).map (fun i => probs.getD i 0) := by
      apply List.map_congr_left
      intro i hi
      have hi2 := List.mem_range.mp hi
      obtain ⟨_, he⟩ := hw i hi2
      rw [he]
      ring
    rw [hcong, sum_getD_range]

/-- Witness for C5 at the probability vector [1/2, 1/4, 1/4]. -/
theorem c5_wheel_ranges_witness :
    ((∀ p ∈ [(1:ℚ)/2, 1/4, 1/4], 0 ≤ p) ∧ (∀ p ∈ [(1:ℚ)/2, 1/4, 1/4], p < sentinel)) ∧
    ((∀ i < [(1:ℚ)/2, 1/4, 1/4].length, 0 ≤ (wheel_cumulative_probs [(1:ℚ)/2, 1/4, 1/4]).1.getD i 0 ∧
      (wheel_cumulative_probs [(1:ℚ)/2, 1/4, 1/4]).1.getD i 0 ≤
        (wheel_cumulative_probs [(1:ℚ)/2, 1/4, 1/4]).2.1.getD i 0) ∧
    ([(1:ℚ)/2, 1/4, 1/4].length ≠ 0 → ∃ i < [(1:ℚ)/2, 1/4, 1/4].length,
      (wheel_cumulative_probs [(1:ℚ)/2, 1/4, 1/4]).1.getD i 0 = 0) ∧
    ((List.range [(1:ℚ)/2, 1/4, 1/4].length).map (fun i =>
      (wheel_cumulative_probs [(1:ℚ)/2, 1/4, 1/4]).2.1.getD i 0 -
        (wheel_cumulative_probs [(1:ℚ)/2, 1/4, 1/4]).1.getD i 0)).sum = [(1:ℚ)/2, 1/4, 1/4].sum ∧
    (∀ i < [(1:ℚ)/2, 1/4, 1/4].length, ∀ j < [(1:ℚ)/2, 1/4, 1/4].length, i ≠ j →
      (wheel_cumulative_probs [(1:ℚ)/2, 1/4, 1/4]).2.1.getD i 0 ≤
        (wheel_cumulative_probs [(1:ℚ)/2, 1/4, 1/4]).1.getD j 0 ∨
      (wheel_cumulative_probs [(1:ℚ)/2, 1/4, 1/4]).2.1.getD j 0 ≤
        (wheel_cumulative_probs [(1:ℚ)/2, 1/4, 1/4]).1.getD i 0) ∧
    (∀ i < [(1:ℚ)/2, 1/4, 1/4].length, ∀ j < [(1:ℚ)/2, 1/4, 1/4].length,
      [(1:ℚ)/2, 1/4, 1/4].getD i 0 < [(1:ℚ)/2, 1/4, 1/4].getD j 0 →
      (wheel_cumulative_probs [(1:ℚ)/2, 1/4, 1/4]).2.1.getD i 0 ≤
        (wheel_cumulative_probs [(1:ℚ)/2, 1/4, 1/4]).1.getD j 0)) := by
  constructor
  · constructor
    · intro p hp
      simp only [List.mem_cons, List.not_mem_nil, or_false] at hp
      rcases hp with rfl | rfl | rfl <;> norm_num
    · intro p hp
      rw [sentinel]
      simp only [List.mem_cons, List.not_mem_nil, or_false] at hp
      rcases hp with rfl | rfl | rfl <;> norm_num
  · exact c5_wheel_ranges [(1:ℚ)/2, 1/4, 1/4]
      (by intro p hp
          simp only [List.mem_cons, List.not_mem_nil, or_false] at hp
          rcases hp with rfl | rfl | rfl <;> norm_num)
      (by intro p hp
          rw [sentinel]
          simp only [List.mem_cons, List.not_mem_nil, or_false] at hp
          rcases hp with rfl | rfl | rfl <;> norm_num)

/-- C10: wheel_cumulative_probs overwrites every entry of the probs array it
was handed with the sentinel value 99999999999 before returning, provided the
entries are below the sentinel, as the probability vectors of its two callers
are (rank probabilities are at most 1; roulette probabilities are fitness over
its sum). Because both callers pass a defensive copy (probs.copy()), the
caller-side array sampled by the subsequent loops keeps the original values:
in the embedding this is reflected by the callers building their wheel from
the copy while their own probs binding stays untouched. -/
theorem c10_wheel_overwrites_probs (probs : List ℚ)
    (hpos : ∀ p ∈ probs, 0 ≤ p) (hsen : ∀ p ∈ probs, p < sentinel) :
    (wheel_cumulative_probs probs).2.2 = List.replicate probs.length sentinel := by
  obtain ⟨_, _, _, _, _, _, hfin⟩ := wheel_props probs hpos hsen
  exact hfin

/-- Witness for C10 at the probability vector [1/3, 2/3]. -/
theorem c10_wheel_overwrites_probs_witness :
    ((∀ p ∈ [(1:ℚ)/3, 2/3], 0 ≤ p) ∧ (∀ p ∈ [(1:ℚ)/3, 2/3], p < sentinel)) ∧
    (wheel_cumulative_probs [(1:ℚ)/3, 2/3]).2.2 =
      List.replicate [(1:ℚ)/3, 2/3].length sentinel := by
  constructor
  · constructor
    · intro p hp
      simp only [List.mem_cons, List.not_mem_nil, or_false] at hp
      rcases hp with rfl | rfl <;> norm_num
    · intro p hp
      rw [sentinel]
      simp only [List.mem_cons, List.not_mem_nil, or_false] at hp
      rcases hp with rfl | rfl <;> norm_num
  · exact c10_wheel_overwrites_probs [(1:ℚ)/3, 2/3]
      (by intro p hp
          simp only [List.mem_cons, List.not_mem_nil, or_false] at hp
          rcases hp with rfl | rfl <;> norm_num)
      (by intro p hp
          rw [sentinel]
          simp only [List.mem_cons, List.not_mem_nil, or_false] at hp
          rcases hp with rfl | rfl <;> norm_num)

/-- C4: roulette-wheel selection and stochastic universal selection raise the
zero-division error exactly when the fitness sum is zero, and they do so before
any random draw: the outcome of the zero-sum test does not depend on the random
stream (rand, first_pointer), which is universally quantified on both sides of
each equivalence. No other selector has an explicit failure path: every other
operation of the embedding is a total function with no error constructor in its
result type. -/
theorem c4_zero_fitness_error (population : List (List ℚ)) (fitness : List ℚ)
    (num_parents num_parents_mating : Nat) (rand : List ℚ) (first_pointer : ℚ) :
    (roulette_wheel_selection population fitness num_parents rand =
        Except.error zeroFitnessMsg ↔ fitness.sum = 0) ∧
    ((∃ out, roulette_wheel_selection population fitness num_parents rand =
        Except.ok out) ↔ fitness.sum ≠ 0) ∧
    (stochastic_universal_selection population fitness num_parents
        num_parents_mating first_pointer = Except.error zeroFitnessMsg ↔ fitness.sum = 0) ∧
    ((∃ out, stochastic_universal_selection population fitness num_parents
        num_parents_mating first_pointer = Except.ok out) ↔ fitness.sum ≠ 0) := by
  by_cases h : fitness.sum = 0
  · refine ⟨?_, ?_, ?_, ?_⟩ <;>
      simp [roulette_wheel_selection, stochastic_universal_selection, h]
  · refine ⟨?_, ?_, ?_, ?_⟩ <;>
      simp [roulette_wheel_selection, stochastic_universal_selection, h]

/- Facts about the sorted index order used by steady_state_selection and
rank_selection. -/

lemma pySortedIdx_sorted (fitness : List ℚ) :
    List.Pairwise (pyKey fitness) (pySortedIdx fitness) :=
  List.sorted_insertionSort (pyKey fitness) (List.range fitness.length)

lemma pySortedIdx_perm (fitness : List ℚ) :
    (pySortedIdx fitness).Perm (List.range fitness.length) :=
  List.perm_insertionSort (pyKey fitness) (List.range fitness.length)

lemma pySortedIdx_nodup (fitness : List ℚ) : (pySortedIdx fitness).Nodup :=
  (pySortedIdx_perm fitness).nodup_iff.mpr (List.nodup_range _)

lemma pySortedIdx_mem (fitness : List ℚ) (i : Nat) :
    i ∈ pySortedIdx fitness ↔ i < fitness.length := by
  rw [(pySortedIdx_perm fitness).mem_iff, List.mem_range]

/-- Counterexample to C6 as stated: the claim breaks ties by original index
(ascending), so at fitness [1, 1] with num_parents = 2 it demands the index
sequence [0, 1]; the code stably sorts ascending and then reverses, so equal
fitness values come back in descending index order [1, 0]. -/
theorem c6_steady_state_tie_counterexample :
    (steady_state_selection [[(5:ℚ)], [7]] [1, 1] 2).2 = [1, 0] ∧
      (steady_state_selection [[(5:ℚ)], [7]] [1, 1] 2).2 ≠ [0, 1] := by
  constructor <;> decide

/-- C6 amended: steady-state selection is deterministic and returns the
indices of the num_parents largest-fitness solutions ordered by fitness
descending, with ties broken by original index descending (the later index
first, because the stable ascending sort is reversed); the parents rows are
the population rows at those indices. For fitness [3,1,4,1,5] and
num_parents = 2 it returns index 4 then index 2 (see the witness). -/
theorem c6_steady_state_top_indices (population : List (List ℚ))
    (fitness : List ℚ) (num_parents : Nat) (h : num_parents ≤ fitness.length) :
    (steady_state_selection population fitness num_parents).2.length = num_parents ∧
    (∀ i ∈ (steady_state_selection population fitness num_parents).2, i < fitness.length) ∧
    List.Pairwise (fun a b => fitness.getD b 0 < fitness.getD a 0 ∨
        (fitness.getD b 0 = fitness.getD a 0 ∧ b < a))
      (steady_state_selection population fitness num_parents).2 ∧
    (∀ j < fitness.length, j ∉ (steady_state_selection population fitness num_parents).2 →
      ∀ i ∈ (steady_state_selection population fitness num_parents).2,
        fitness.getD j 0 < fitness.getD i 0 ∨
          (fitness.getD j 0 = fitness.getD i 0 ∧ j < i)) ∧
    (steady_state_selection population fitness num_parents).1 =
      (steady_state_selection population fitness num_parents).2.map
        (fun i => population.getD i []) := by
  have hfulllen : (pySortedIdx fitness).reverse.length = fitness.length := by
    rw [List.length_reverse, (pySortedIdx_perm fitness).length_eq, List.length_range]
  have hfullpw : List.Pairwise (fun a b => pyKey fitness b a) (pySortedIdx fitness).reverse :=
    List.pairwise_reverse.mpr (pySortedIdx_sorted fitness)
  have hfullnd : (pySortedIdx fitness).reverse.Nodup :=
    List.nodup_reverse.mpr (pySortedIdx_nodup fitness)
  have hstrict : List.Pairwise (fun a b => fitness.getD b 0 < fitness.getD a 0 ∨
      (fitness.getD b 0 = fitness.getD a 0 ∧ b < a)) (pySortedIdx fitness).reverse := by
    have hcomb := hfullpw.and hfullnd
    refine hcomb.imp ?_
    intro a b hab
    obtain ⟨hk, hne⟩ := hab
    rcases hk with hlt | ⟨heq, hle⟩
    · exact Or.inl hlt
    · exact Or.inr ⟨heq, lt_of_le_of_ne hle (Ne.symm hne)⟩
  have hmemfull : ∀ i, i ∈ (pySortedIdx fitness).reverse ↔ i < fitness.length := by
    intro i
    rw [List.mem_reverse, pySortedIdx_mem]
  have hsel : (steady_state_selection population fitness num_parents).2 =
      ((pySortedIdx fitness).reverse).take num_parents := rfl
  refine ⟨?_, ?_, ?_, ?_, rfl⟩
  · rw [hsel, List.length_take, hfulllen]
    omega
  · intro i hi
    rw [hsel] at hi
    exact (hmemfull i).mp ((List.take_sublist _ _).mem hi)
  · rw [hsel]
    exact List.Pairwise.sublist (List.take_sublist _ _) hstrict
  · intro j hjn hjsel i hisel
    rw [hsel] at hjsel hisel
    have hsplit := List.take_append_drop num_parents (pySortedIdx fitness).reverse
    have hpw2 : List.Pairwise (fun a b => fitness.getD b 0 < fitness.getD a 0 ∨
        (fitness.getD b 0 = fitness.getD a 0 ∧ b < a))
        (((pySortedIdx fitness).reverse).take num_parents ++
          ((pySortedIdx fitness).reverse).drop num_parents) := by
      rw [hsplit]
      exact hstrict
    have hj2 : j ∈ ((pySortedIdx fitness).reverse).take num_parents ∨
        j ∈ ((pySortedIdx fitness).reverse).drop num_parents := by
      rw [← List.mem_append, hsplit]
      exact (hmemfull j).mpr hjn
    rcases hj2 with hj2 | hj2
    · exact absurd hj2 hjsel
    · exact (List.pairwise_append.mp hpw2).2.2 i hisel j hj2

/-- Witness for C6 at the fitness vector of the spec example. -/
theorem c6_steady_state_top_indices_witness :
    (2 ≤ [(3:ℚ), 1, 4, 1, 5].length ∧
      (steady_state_selection [[(10:ℚ)], [20], [30], [40], [50]] [3, 1, 4, 1, 5] 2).2.length = 2) ∧
    (steady_state_selection [[(10:ℚ)], [20], [30], [40], [50]] [3, 1, 4, 1, 5] 2).2 = [4, 2] := by
  refine ⟨⟨by decide, ?_⟩, by decide⟩
  exact (c6_steady_state_top_indices [[(10:ℚ)], [20], [30], [40], [50]]
    [3, 1, 4, 1, 5] 2 (by decide)).1

/-- Core facts about one tournament: the winner is a drawn candidate, has the
maximum fitness among the draws, and sits at the first drawn position attaining
that maximum (every strictly earlier draw has strictly smaller fitness). -/
lemma tournament_pick_spec (fitness : List ℚ) (draws : List Nat) (hne : draws ≠ []) :
    tournament_pick fitness draws ∈ draws ∧
    (∀ i ∈ draws, fitness.getD i 0 ≤ fitness.getD (tournament_pick fitness draws) 0) ∧
    ∃ pos < draws.length, draws.getD pos 0 = tournament_pick fitness draws ∧
      ∀ q < pos, fitness.getD (draws.getD q 0) 0 <
        fitness.getD (tournament_pick fitness draws) 0 := by
  have hKne : draws.map (fun i => fitness.getD i 0) ≠ [] := by
    intro hc
    exact hne (List.map_eq_nil_iff.mp hc)
  have hvmem : listMax (draws.map (fun i => fitness.getD i 0)) ∈
      draws.map (fun i => fitness.getD i 0) := listMax_mem _ hKne
  have hposlen : firstIdxOf (listMax (draws.map (fun i => fitness.getD i 0)))
      (draws.map (fun i => fitness.getD i 0)) <
      (draws.map (fun i => fitness.getD i 0)).length :=
    firstIdxOf_lt_length _ _ hvmem
  have hposdraws : firstIdxOf (listMax (draws.map (fun i => fitness.getD i 0)))
      (draws.map (fun i => fitness.getD i 0)) < draws.length := by
    rw [List.length_map] at hposlen
    exact hposlen
  have hposval : (draws.map (fun i => fitness.getD i 0)).getD
      (firstIdxOf (listMax (draws.map (fun i => fitness.getD i 0)))
        (draws.map (fun i => fitness.getD i 0))) 0 =
      listMax (draws.map (fun i => fitness.getD i 0)) := getD_firstIdxOf _ _ hvmem
  have hpickdef : tournament_pick fitness draws =
      draws.getD (firstIdxOf (listMax (draws.map (fun i => fitness.getD i 0)))
        (draws.map (fun i => fitness.getD i 0))) 0 := rfl
  have hmap0 : (draws.map (fun i => fitness.getD i 0)).getD
      (firstIdxOf (listMax (draws.map (fun i => fitness.getD i 0)))
        (draws.map (fun i => fitness.getD i 0))) 0 =
      fitness.getD (draws.getD
        (firstIdxOf (listMax (draws.map (fun i => fitness.getD i 0)))
          (draws.map (fun i => fitness.getD i 0))) 0) 0 := getD_map _ _ hposdraws 0 0
  have hfitpick : fitness.getD (tournament_pick fitness draws) 0 =
      listMax (draws.map (fun i => fitness.getD i 0)) := by
    rw [hpickdef, ← hmap0, hposval]
  refine ⟨?_, ?_, ?_⟩
  · rw [hpickdef]
    exact getD_mem _ _ _ hposdraws
  · intro i hi
    rw [hfitpick]
    exact listMax_ge _ _ (List.mem_map.mpr ⟨i, hi, rfl⟩)
  · refine ⟨firstIdxOf (listMax (draws.map (fun i => fitness.getD i 0)))
      (draws.map (fun i => fitness.getD i 0)), hposdraws, hpickdef.symm, ?_⟩
    intro q hq
    have hqdraws : q < draws.length := lt_trans hq hposdraws
    have hne2 : (draws.map (fun i => fitness.getD i 0)).getD q 0 ≠
        listMax (draws.map (fun i => fitness.getD i 0)) :=
      firstIdxOf_ne_before _ _ q hq
    have hqmap : (draws.map (fun i => fitness.getD i 0)).getD q 0 =
        fitness.getD (draws.getD q 0) 0 := getD_map _ _ hqdraws 0 0
    have hle2 : fitness.getD (draws.getD q 0) 0 ≤
        listMax (draws.map (fun i => fitness.getD i 0)) := by
      apply listMax_ge
      exact List.mem_map.mpr ⟨draws.getD q 0, getD_mem _ _ _ hqdraws, rfl⟩
    rw [hfitpick]
    rw [hqmap] at hne2
    exact lt_of_le_of_ne hle2 hne2

/-- C7: in tournament selection each parent is the drawn candidate with the
highest fitness among its row of K draws, ties broken by first-encountered
order among the draws, and with a single draw (K = 1) the sole candidate always
wins; the parent row is the population row of that winner. -/
theorem c7_tournament_winner (population : List (List ℚ)) (fitness : List ℚ)
    (num_parents : Nat) (rand_indices : List (List Nat)) (pn : Nat)
    (hpn : pn < num_parents) (hne : rand_indices.getD pn [] ≠ []) :
    (tournament_selection population fitness num_parents rand_indices).2.getD pn 0 =
      tournament_pick fitness (rand_indices.getD pn []) ∧
    (tournament_selection population fitness num_parents rand_indices).1.getD pn [] =
      population.getD (tournament_pick fitness (rand_indices.getD pn [])) [] ∧
    tournament_pick fitness (rand_indices.getD pn []) ∈ rand_indices.getD pn [] ∧
    (∀ i ∈ rand_indices.getD pn [], fitness.getD i 0 ≤
      fitness.getD (tournament_pick fitness (rand_indices.getD pn [])) 0) ∧
    (∃ pos < (rand_indices.getD pn []).length,
      (rand_indices.getD pn []).getD pos 0 = tournament_pick fitness (rand_indices.getD pn []) ∧
      ∀ q < pos, fitness.getD ((rand_indices.getD pn []).getD q 0) 0 <
        fitness.getD (tournament_pick fitness (rand_indices.getD pn [])) 0) ∧
    (∀ c, rand_indices.getD pn [] = [c] →
      tournament_pick fitness (rand_indices.getD pn []) = c) := by
  obtain ⟨hmem2, hmax, hfirst⟩ := tournament_pick_spec fitness (rand_indices.getD pn []) hne
  have hsel : (tournament_selection population fitness num_parents rand_indices).2 =
      (List.range num_parents).map (fun k => tournament_pick fitness (rand_indices.getD k [])) := rfl
  have hidx : (tournament_selection population fitness num_parents rand_indices).2.getD pn 0 =
      tournament_pick fitness (rand_indices.getD pn []) := by
    rw [hsel, getD_map_range _ hpn]
  refine ⟨hidx, ?_, hmem2, hmax, hfirst, ?_⟩
  · have hlen : pn < ((List.range num_parents).map
        (fun k => tournament_pick fitness (rand_indices.getD k []))).length := by
      rw [List.length_map, List.length_range]
      exact hpn
    have hpar : (tournament_selection population fitness num_parents rand_indices).1 =
        ((List.range num_parents).map (fun k => tournament_pick fitness (rand_indices.getD k []))).map
          (fun i => population.getD i []) := rfl
    rw [hpar, getD_map _ _ hlen 0, getD_map_range _ hpn]
  · intro c hc
    rw [hc]
    show [c].getD (firstIdxOf (listMax [fitness.getD c 0]) [fitness.getD c 0]) 0 = c
    rw [listMax, List.foldl_nil, firstIdxOf, if_pos rfl]
    rfl

/-- Witness for C7: fitness [1, 5, 5], one parent whose tournament row is
[2, 1, 0]; both candidates 2 and 1 attain the maximum 5 and the
first-encountered one (2) wins. -/
theorem c7_tournament_winner_witness :
    (0 < 1 ∧ ([[2, 1, 0]] : List (List Nat)).getD 0 [] ≠ []) ∧
    (tournament_selection [[(10:ℚ)], [20], [30]] [1, 5, 5] 1 [[2, 1, 0]]).2.getD 0 0 =
      tournament_pick [(1:ℚ), 5, 5] (([[2, 1, 0]] : List (List Nat)).getD 0 []) ∧
    (tournament_selection [[(10:ℚ)], [20], [30]] [1, 5, 5] 1 [[2, 1, 0]]).2 = [2] := by
  refine ⟨⟨by decide, by decide⟩, ?_, by decide⟩
  exact (c7_tournament_winner [[(10:ℚ)], [20], [30]] [1, 5, 5] 1 [[2, 1, 0]] 0
    (by decide) (by decide)).1

lemma nsga2FrontSelectionSpec_zero (dist : Nat → ℚ) (l : List (List Nat)) :
    nsga2FrontSelectionSpec dist l 0 = [] := by
  cases l with
  | nil => rfl
  | cons f rest => rw [nsga2FrontSelectionSpec, if_pos rfl]

/-- The indices accumulated by the nsga2_selection loop are the accumulator
followed by the spec-side front walk; the parents-array writes do not feed back
into the index list. -/
lemma nsga2Loop_indices (population : List (List ℚ)) (dist : Nat → ℚ) :
    ∀ (fronts : List (List Nat)) (remaining : Nat) (parents : List (Option (List ℚ)))
      (acc : List Nat) (solIdx : Option Nat) (out : List (Option (List ℚ)) × List Nat),
      nsga2Loop population dist fronts remaining parents acc solIdx = some out →
      out.2 = acc ++ nsga2FrontSelectionSpec dist fronts remaining := by
  intro fronts
  induction fronts with
  | nil =>
    intro remaining parents acc solIdx out h
    have h2 : some (parents, acc) = some out := h
    injection h2 with h2
    rw [← h2, nsga2FrontSelectionSpec, List.append_nil]
  | cons f rest ih =>
    intro remaining parents acc solIdx out h
    rw [nsga2FrontSelectionSpec]
    cases solIdx with
    | none =>
      have h2 : (if remaining = 0 then some (parents, acc)
          else if f.length ≤ remaining then
            nsga2Loop population dist rest (remaining - f.length)
              (nsga2FullFrontWrite population f parents) (acc ++ f)
              (if f.length = 0 then none else some (f.length - 1))
          else none) = some out := h
      by_cases hr : remaining = 0
      · rw [if_pos hr] at h2
        injection h2 with h2
        rw [← h2, if_pos hr, List.append_nil]
      · rw [if_neg hr] at h2
        rw [if_neg hr]
        by_cases hf : f.length ≤ remaining
        · rw [if_pos hf] at h2
          rw [if_pos hf]
          have := ih _ _ _ _ _ h2
          rw [this, List.append_assoc]
        · rw [if_neg hf] at h2
          rw [if_neg hf]
          cases h2
    | some si =>
      have h2 : (if remaining = 0 then some (parents, acc)
          else if f.length ≤ remaining then
            nsga2Loop population dist rest (remaining - f.length)
              (nsga2FullFrontWrite population f parents) (acc ++ f)
              (if f.length = 0 then some si else some (f.length - 1))
          else nsga2Loop population dist rest 0
              (((crowding_pop_sorted dist f).take remaining).foldl
                (fun ps j => ps.set si (some (population.getD j []))) parents)
              (acc ++ (crowding_pop_sorted dist f).take remaining) (some si)) = some out := h
      by_cases hr : remaining = 0
      · rw [if_pos hr] at h2
        injection h2 with h2
        rw [← h2, if_pos hr, List.append_nil]
      · rw [if_neg hr] at h2
        rw [if_neg hr]
        by_cases hf : f.length ≤ remaining
        · rw [if_pos hf] at h2
          rw [if_pos hf]
          have := ih _ _ _ _ _ h2
          rw [this, List.append_assoc]
        · rw [if_neg hf] at h2
          rw [if_neg hf]
          have := ih _ _ _ _ _ h2
          rw [this, nsga2FrontSelectionSpec_zero, List.append_nil]

/-- C2: whenever NSGA-II front-based selection returns normally, its returned
index sequence is exactly the spec-side front walk: fronts are consumed in
increasing index order, a front that fits in the remaining quota contributes
all of its solutions, and a boundary front contributes its top-k solutions by
descending crowding distance, k the remaining quota; in particular no solution
of a later front is selected while an earlier front has unselected members. -/
theorem c2_nsga2_front_walk (population : List (List ℚ)) (fronts : List (List Nat))
    (dist : Nat → ℚ) (num_parents : Nat) (out : List (Option (List ℚ)) × List Nat)
    (h : nsga2_selection population fronts dist num_parents = some out) :
    out.2 = nsga2FrontSelectionSpec dist fronts num_parents := by
  have := nsga2Loop_indices population dist fronts num_parents
    (List.replicate num_parents none) [] none out h
  rw [this, List.nil_append]

/-- Witness for C2 at the spec example: fronts of sizes [2, 3, 1] and
num_parents = 4 select all of front 0 and the top 2 of front 1 by descending
crowding distance (distances 5 and 3 at solutions 3 and 4), none of front 2. -/
theorem c2_nsga2_front_walk_witness :
    nsga2_selection [[(0:ℚ)], [10], [20], [30], [40], [50]] [[0, 1], [2, 3, 4], [5]]
      (fun i => if i = 3 then (5:ℚ) else if i = 4 then 3 else if i = 2 then 1 else 0) 4 =
      some ([some [0], some [40], none, none], [0, 1, 3, 4]) ∧
    nsga2FrontSelectionSpec
      (fun i => if i = 3 then (5:ℚ) else if i = 4 then 3 else if i = 2 then 1 else 0)
      [[0, 1], [2, 3, 4], [5]] 4 = [0, 1, 3, 4] := by
  have h : nsga2_selection [[(0:ℚ)], [10], [20], [30], [40], [50]] [[0, 1], [2, 3, 4], [5]]
      (fun i => if i = 3 then (5:ℚ) else if i = 4 then 3 else if i = 2 then 1 else 0) 4 =
      some ([some [0], some [40], none, none], [0, 1, 3, 4]) := by decide
  refine ⟨h, ?_⟩
  have h2 := c2_nsga2_front_walk _ _ _ _ _ h
  exact h2.symm

/-- C1 fails on nsga2_selection: at two singleton fronts [[0]], [[1]] with
num_parents = 2 the call returns normally with index sequence [0, 1], but the
full-front branch writes every front starting at parents row 0, so row 0 holds
population row 1 (the genes [20], not [10] = population row 0 named by index 0)
and row 1 was never written. The parents array is therefore not positionally
aligned with the returned indices. -/
theorem c1_nsga2_parents_misaligned :
    nsga2_selection [[(10:ℚ)], [20]] [[0], [1]] (fun _ => 0) 2 =
      some ([some [20], none], [0, 1]) ∧ [(20:ℚ)] ≠ [10] := by
  constructor <;> decide

/-- On a normal return of tournament_selection_nsga2 the parent at position pn
is the pick computed from the first two drawn candidates of row pn alone. -/
lemma tsn_pick_of_some (population : List (List ℚ)) (fronts : List (List Nat))
    (dist : Nat → ℚ) (rows : List (List Nat)) (ties : List ℚ)
    (out : List (List ℚ) × List Nat)
    (h : tournament_selection_nsga2 population fronts dist rows ties = some out)
    (pn : Nat) (hpn : pn < rows.length) :
    nsga2TournamentPick fronts dist ((rows.getD pn []).getD 0 0)
      ((rows.getD pn []).getD 1 0) (ties.getD pn 0) = some (out.2.getD pn 0) := by
  have h2 : (if none ∈ (List.range rows.length).map (fun k =>
        nsga2TournamentPick fronts dist ((rows.getD k []).getD 0 0)
          ((rows.getD k []).getD 1 0) (ties.getD k 0)) then none
      else some (((((List.range rows.length).map (fun k =>
        nsga2TournamentPick fronts dist ((rows.getD k []).getD 0 0)
          ((rows.getD k []).getD 1 0) (ties.getD k 0))).filterMap id).map
            (fun i => population.getD i [])),
        ((List.range rows.length).map (fun k =>
        nsga2TournamentPick fronts dist ((rows.getD k []).getD 0 0)
          ((rows.getD k []).getD 1 0) (ties.getD k 0))).filterMap id)) = some out := h
  by_cases hn : none ∈ (List.range rows.length).map (fun k =>
      nsga2TournamentPick fronts dist ((rows.getD k []).getD 0 0)
        ((rows.getD k []).getD 1 0) (ties.getD k 0))
  · rw [if_pos hn] at h2
    cases h2
  · rw [if_neg hn] at h2
    injection h2 with h2
    have hpicklen : pn < ((List.range rows.length).map (fun k =>
        nsga2TournamentPick fronts dist ((rows.getD k []).getD 0 0)
          ((rows.getD k []).getD 1 0) (ties.getD k 0))).length := by
      rw [List.length_map, List.length_range]
      exact hpn
    have hout2 : out.2 = ((List.range rows.length).map (fun k =>
        nsga2TournamentPick fronts dist ((rows.getD k []).getD 0 0)
          ((rows.getD k []).getD 1 0) (ties.getD k 0))).filterMap id := by
      rw [← h2]
    rw [hout2, filterMap_id_of_no_none _ hn, getD_map _ _ hpicklen none 0,
      getD_map_range _ hpn]
    have hmem3 : ((List.range rows.length).map (fun k =>
        nsga2TournamentPick fronts dist ((rows.getD k []).getD 0 0)
          ((rows.getD k []).getD 1 0) (ties.getD k 0))).getD pn none ∈
        (List.range rows.length).map (fun k =>
        nsga2TournamentPick fronts dist ((rows.getD k []).getD 0 0)
          ((rows.getD k []).getD 1 0) (ties.getD k 0)) := getD_mem _ _ _ hpicklen
    rw [getD_map_range _ hpn] at hmem3
    obtain ⟨w, hw⟩ := Option.ne_none_iff_exists'.mp (fun hc => hn (hc ▸ hmem3))
    rw [hw]
    rfl

/-- C3 amended: tournament_selection_nsga2 draws a row of K candidate indices
per parent but compares only the first two of them; between those two, lower
front index wins outright, on equal fronts a single-member front skips the
crowding lookup and yields the first candidate, otherwise the larger summed
crowding distance wins with an exact tie broken by a uniform draw against 0.5,
and the first of the two compared candidates being in front 0 against a
candidate in any later front always wins. -/
theorem c3_nsga2_tournament (population : List (List ℚ)) (fronts : List (List Nat))
    (dist : Nat → ℚ) (rows : List (List Nat)) (ties : List ℚ)
    (out : List (List ℚ) × List Nat)
    (h : tournament_selection_nsga2 population fronts dist rows ties = some out)
    (pn : Nat) (hpn : pn < rows.length) :
    nsga2TournamentPick fronts dist ((rows.getD pn []).getD 0 0)
      ((rows.getD pn []).getD 1 0) (ties.getD pn 0) = some (out.2.getD pn 0) ∧
    (∀ c0 c1 : Nat, ∀ t : ℚ, frontIndexOf fronts c0 < frontIndexOf fronts c1 →
      nsga2TournamentPick fronts dist c0 c1 t = some c0) ∧
    (∀ c0 c1 : Nat, ∀ t : ℚ, frontIndexOf fronts c1 < frontIndexOf fronts c0 →
      nsga2TournamentPick fronts dist c0 c1 t = some c1) ∧
    (∀ c0 c1 : Nat, ∀ t : ℚ, frontIndexOf fronts c0 = frontIndexOf fronts c1 →
      (fronts.getD (frontIndexOf fronts c0) []).length = 1 →
      nsga2TournamentPick fronts dist c0 c1 t = some c0) ∧
    (∀ c0 c1 : Nat, ∀ t : ℚ, frontIndexOf fronts c0 = frontIndexOf fronts c1 →
      (fronts.getD (frontIndexOf fronts c0) []).length ≠ 1 →
      c0 ∈ fronts.getD (frontIndexOf fronts c0) [] →
      c1 ∈ fronts.getD (frontIndexOf fronts c0) [] →
      ((dist c1 < dist c0 → nsga2TournamentPick fronts dist c0 c1 t = some c0) ∧
       (dist c0 < dist c1 → nsga2TournamentPick fronts dist c0 c1 t = some c1) ∧
       (dist c0 = dist c1 → t < 1 / 2 → nsga2TournamentPick fronts dist c0 c1 t = some c0) ∧
       (dist c0 = dist c1 → 1 / 2 ≤ t → nsga2TournamentPick fronts dist c0 c1 t = some c1))) ∧
    (∀ c0 c1 : Nat, ∀ t : ℚ, frontIndexOf fronts c0 = 0 → 0 < frontIndexOf fronts c1 →
      nsga2TournamentPick fronts dist c0 c1 t = some c0) := by
  have hwin0 : ∀ c0 c1 : Nat, ∀ t : ℚ, frontIndexOf fronts c0 < frontIndexOf fronts c1 →
      nsga2TournamentPick fronts dist c0 c1 t = some c0 := by
    intro c0 c1 t hlt
    rw [nsga2TournamentPick, if_pos hlt]
  refine ⟨tsn_pick_of_some population fronts dist rows ties out h pn hpn, hwin0, ?_, ?_, ?_, ?_⟩
  · intro c0 c1 t hlt
    rw [nsga2TournamentPick, if_neg (by omega), if_pos hlt]
  · intro c0 c1 t heq hone
    rw [nsga2TournamentPick, if_neg (by omega), if_neg (by omega), if_pos]
    exact hone
  · intro c0 c1 t heq hone hm0 hm1
    have hm0s : c0 ∈ crowding_pop_sorted dist (fronts.getD (frontIndexOf fronts c0) []) :=
      ((List.perm_insertionSort _ _).mem_iff).mpr hm0
    have hm1s : c1 ∈ crowding_pop_sorted dist (fronts.getD (frontIndexOf fronts c0) []) :=
      ((List.perm_insertionSort _ _).mem_iff).mpr hm1
    obtain ⟨i0, hi0eq, hi0len, hi0val⟩ := natIdxOf_found _ _ hm0s
    obtain ⟨i1, hi1eq, hi1len, hi1val⟩ := natIdxOf_found _ _ hm1s
    have hred : ∀ t2 : ℚ, nsga2TournamentPick fronts dist c0 c1 t2 =
        (if dist c1 < dist c0 then some c0
         else if dist c0 < dist c1 then some c1
         else if t2 < 1 / 2 then some c0 else some c1) := by
      intro t2
      rw [nsga2TournamentPick, if_neg (by omega), if_neg (by omega), if_neg hone]
      simp only [hi0eq, hi1eq, hi0val, hi1val]
    refine ⟨?_, ?_, ?_, ?_⟩
    · intro hd
      rw [hred t, if_pos hd]
    · intro hd
      rw [hred t, if_neg (by exact not_lt.mpr (le_of_lt hd)), if_pos hd]
    · intro hd ht
      rw [hred t, if_neg (by rw [hd]; exact lt_irrefl _), if_neg (by rw [hd]; exact lt_irrefl _),
        if_pos ht]
    · intro hd ht
      rw [hred t, if_neg (by rw [hd]; exact lt_irrefl _), if_neg (by rw [hd]; exact lt_irrefl _),
        if_neg (not_lt.mpr ht)]
  · intro c0 c1 t h0 h1
    exact hwin0 c0 c1 t (by omega)

/-- Counterexample to C3 as stated: with K = 3 drawn candidates [0, 1, 2],
candidate 2 lies in front 0 while candidates 0 and 1 lie in front 1, so the
claimed sequential reduction of the whole candidate set (and the claimed
unconditional victory of a front-0 candidate) demands winner 2; the code only
ever compares the first two candidates and returns 0 (the crowding-distance
winner between 0 and 1), ignoring candidate 2 entirely. -/
theorem c3_nsga2_tournament_counterexample :
    tournament_selection_nsga2 [[(10:ℚ)], [20], [30]] [[2], [0, 1]]
      (fun i => if i = 0 then (1:ℚ) else 0) [[0, 1, 2]] [0] =
      some ([[10]], [0]) ∧
    frontIndexOf [[2], [0, 1]] 2 = 0 ∧ frontIndexOf [[2], [0, 1]] 0 = 1 ∧
    (0 : Nat) ≠ 2 := by
  refine ⟨by decide, by decide, by decide, by decide⟩

/-- Witness for C3 at a call that returns normally: one parent, candidate row
[0, 1, 2], both compared candidates in front 1 with crowding distances 1 and 0,
so the pick is candidate 0. -/
theorem c3_nsga2_tournament_witness :
    (tournament_selection_nsga2 [[(10:ℚ)], [20], [30]] [[2], [0, 1]]
        (fun i => if i = 0 then (1:ℚ) else 0) [[0, 1, 2]] [0] =
        some ([[10]], [0]) ∧ 0 < ([[0, 1, 2]] : List (List Nat)).length) ∧
    nsga2TournamentPick [[2], [0, 1]] (fun i => if i = 0 then (1:ℚ) else 0) 0 1 0 =
      some 0 := by
  have h : tournament_selection_nsga2 [[(10:ℚ)], [20], [30]] [[2], [0, 1]]
      (fun i => if i = 0 then (1:ℚ) else 0) [[0, 1, 2]] [0] =
      some ([[10]], [0]) := by decide
  refine ⟨⟨h, by decide⟩, ?_⟩
  exact (c3_nsga2_tournament [[(10:ℚ)], [20], [30]] [[2], [0, 1]]
    (fun i => if i = 0 then (1:ℚ) else 0) [[0, 1, 2]] [0] ([[10]], [0]) h 0 (by decide)).1

/-- When the wheel ranges are pairwise non-overlapping, the first-match scan
returns exactly the range containing the sample. -/
lemma scanWheel_eq_some {ps pe : List ℚ} {r : ℚ} {j : Nat} (hj : j < ps.length)
    (hdisj : ∀ i < ps.length, i ≠ j → ¬(ps.getD i 0 ≤ r ∧ r < pe.getD i 0))
    (hcont : ps.getD j 0 ≤ r ∧ r < pe.getD j 0) :
    scanWheel ps pe r = some j := by
  have hex : ∃ x ∈ List.range ps.length,
      (fun i => decide (ps.getD i 0 ≤ r) && decide (r < pe.getD i 0)) x = true :=
    ⟨j, List.mem_range.mpr hj, by
      simp only [Bool.and_eq_true, decide_eq_true_eq]
      exact hcont⟩
  obtain ⟨a, ha⟩ := Option.isSome_iff_exists.mp (List.find?_isSome.mpr hex)
  have hpa := List.find?_some ha
  simp only [Bool.and_eq_true, decide_eq_true_eq] at hpa
  have han : a < ps.length := List.mem_range.mp (List.mem_of_find?_eq_some ha)
  by_cases haj : a = j
  · rw [scanWheel, ha, haj]
  · exact absurd hpa (hdisj a han haj)

/-- Normalised fitness probabilities are non-negative and below the sentinel
when the fitness entries are non-negative with a non-zero sum. -/
lemma fitness_probs_bounds (fitness : List ℚ)
    (hnn : ∀ x ∈ fitness, 0 ≤ x) (hsum : fitness.sum ≠ 0) :
    (∀ p ∈ fitness.map (fun f => f / fitness.sum), 0 ≤ p) ∧
    (∀ p ∈ fitness.map (fun f => f / fitness.sum), p < sentinel) := by
  have hpos : 0 < fitness.sum :=
    lt_of_le_of_ne (List.sum_nonneg hnn) (Ne.symm hsum)
  constructor
  · intro p hp
    obtain ⟨f, hf, rfl⟩ := List.mem_map.mp hp
    exact div_nonneg (hnn f hf) (le_of_lt hpos)
  · intro p hp
    obtain ⟨f, hf, rfl⟩ := List.mem_map.mp hp
    have hle1 : f / fitness.sum ≤ 1 :=
      (div_le_one hpos).mpr (List.single_le_sum hnn f hf)
    have : (1:ℚ) < sentinel := by rw [sentinel]; norm_num
    linarith

/-- C8: stochastic universal selection uses the fixed pointer spacing
1 / num_parents_mating (the configured mating-pool size, not the num_parents
argument), one pre-drawn offset, and for every pointer
first_pointer + pn * spacing that lands in the wheel range of solution j, the
parent at position pn is (a copy of) population row j. -/
theorem c8_sus_pointers (population : List (List ℚ)) (fitness : List ℚ)
    (num_parents num_parents_mating : Nat) (first_pointer : ℚ)
    (hnn : ∀ x ∈ fitness, 0 ≤ x) (hsum : fitness.sum ≠ 0) :
    ∃ out, stochastic_universal_selection population fitness num_parents
        num_parents_mating first_pointer = Except.ok out ∧
      out.1.length = num_parents ∧
      ∀ pn : Nat, pn < num_parents → ∀ j : Nat, j < fitness.length →
        ((wheel_cumulative_probs (fitness.map (fun f => f / fitness.sum))).1.getD j 0 ≤
            first_pointer + (pn : ℚ) * (1 / (num_parents_mating : ℚ)) ∧
          first_pointer + (pn : ℚ) * (1 / (num_parents_mating : ℚ)) <
            (wheel_cumulative_probs (fitness.map (fun f => f / fitness.sum))).2.1.getD j 0) →
        out.1.getD pn none = some (population.getD j []) := by
  obtain ⟨hprobs0, hprobssen⟩ := fitness_probs_bounds fitness hnn hsum
  obtain ⟨hlps, hlpe, _, hdisj, _, _, _⟩ :=
    wheel_props (fitness.map (fun f => f / fitness.sum)) hprobs0 hprobssen
  have hdef : stochastic_universal_selection population fitness num_parents
      num_parents_mating first_pointer =
      (if fitness.sum = 0 then Except.error zeroFitnessMsg
       else Except.ok
        ((susHits fitness num_parents num_parents_mating first_pointer).map
            (Option.map (fun i => population.getD i [])),
          (susHits fitness num_parents num_parents_mating first_pointer).filterMap id)) := rfl
  rw [if_neg hsum] at hdef
  refine ⟨_, hdef, ?_, ?_⟩
  · simp only [susHits, List.length_map, List.length_range]
  · intro pn hpn j hj hcont
    have hhitlen : (susHits fitness num_parents num_parents_mating first_pointer).length =
        num_parents := by
      rw [susHits, List.length_map, List.length_range]
    have hlen2 : pn < (susHits fitness num_parents num_parents_mating first_pointer).length := by
      rw [hhitlen]
      exact hpn
    show ((susHits fitness num_parents num_parents_mating first_pointer).map
        (Option.map (fun i => population.getD i []))).getD pn none =
        some (population.getD j [])
    rw [getD_map _ _ hlen2 none none]
    have hpos : (susHits fitness num_parents num_parents_mating first_pointer).getD pn none =
        scanWheel (wheel_cumulative_probs (fitness.map (fun f => f / fitness.sum))).1
          (wheel_cumulative_probs (fitness.map (fun f => f / fitness.sum))).2.1
          (first_pointer + (pn : ℚ) * (1 / (num_parents_mating : ℚ))) := by
      rw [susHits, getD_map_range _ hpn]
    rw [hpos]
    have hjps : j < (wheel_cumulative_probs (fitness.map (fun f => f / fitness.sum))).1.length := by
      rw [hlps, List.length_map]
      exact hj
    have hscan : scanWheel (wheel_cumulative_probs (fitness.map (fun f => f / fitness.sum))).1
        (wheel_cumulative_probs (fitness.map (fun f => f / fitness.sum))).2.1
        (first_pointer + (pn : ℚ) * (1 / (num_parents_mating : ℚ))) = some j := by
      apply scanWheel_eq_some hjps
      · intro i hi hij hc
        have hin : i < (fitness.map (fun f => f / fitness.sum)).length := by
          rw [← hlps]
          exact hi
        have hjn : j < (fitness.map (fun f => f / fitness.sum)).length := by
          rw [List.length_map]
          exact hj
        rcases hdisj i hin j hjn hij with hd | hd
        · have h1 := hc.2
          have h2 := hcont.1
          linarith
        · have h1 := hc.1
          have h2 := hcont.2
          linarith
      · exact hcont
    rw [hscan]
    rfl

/-- Witness for C8 at fitness [3, 1], two parents, mating-pool size 2 and
offset 1/8. -/
theorem c8_sus_pointers_witness :
    ((∀ x ∈ [(3:ℚ), 1], 0 ≤ x) ∧ [(3:ℚ), 1].sum ≠ 0) ∧
    (∃ out, stochastic_universal_selection [[(10:ℚ)], [20]] [3, 1] 2 2 (1 / 8) =
        Except.ok out ∧
      out.1.length = 2 ∧
      ∀ pn : Nat, pn < 2 → ∀ j : Nat, j < [(3:ℚ), 1].length →
        ((wheel_cumulative_probs ([(3:ℚ), 1].map (fun f => f / [(3:ℚ), 1].sum))).1.getD j 0 ≤
            1 / 8 + (pn : ℚ) * (1 / (2 : ℚ)) ∧
          1 / 8 + (pn : ℚ) * (1 / (2 : ℚ)) <
            (wheel_cumulative_probs ([(3:ℚ), 1].map (fun f => f / [(3:ℚ), 1].sum))).2.1.getD j 0) →
        out.1.getD pn none = some ([[(10:ℚ)], [20]].getD j [])) := by
  have h1 : ∀ x ∈ [(3:ℚ), 1], 0 ≤ x := by
    intro x hx
    simp only [List.mem_cons, List.not_mem_nil, or_false] at hx
    rcases hx with rfl | rfl <;> norm_num
  have h2 : [(3:ℚ), 1].sum ≠ 0 := by
    rw [List.sum_cons, List.sum_cons, List.sum_nil]
    norm_num
  exact ⟨⟨h1, h2⟩, c8_sus_pointers [[(10:ℚ)], [20]] [3, 1] 2 2 (1 / 8) h1 h2⟩

end PygadSel
